import Mathlib

/-!
Shallow embedding of the sdial "speed dial" lock simulator (src/main.rs).

The source is a single Rust file.  We embed:
* `Wheel` (src/main.rs:152-199): a single dial wheel packed into a `u8` as
  `pos * 3 + (shift + 1)`; embedded as a `Nat` with the same arithmetic.
* `prior` / `next` (src/main.rs:247-261).
* `Lock` (src/main.rs:217-245): four wheels, with the `slide` transition.
* the enumeration / aggregation loop of `main` (src/main.rs:66-90), with the
  `BTreeMap<Lock, Target>` modelled as an association list in first-insertion
  order (the claims under study are insensitive to key-iteration order).
* the reporter's two stable sorts (src/main.rs:106-108), modelled by
  Mathlib's stable `List.insertionSort` (a stable sort's output is determined
  by the comparator and the input order, so any stable sort models Rust's
  stable `sort_by` / `sort_by_key`).
-/

/-- A wheel is stored as a single unsigned byte (`struct Wheel(u8)`,
src/main.rs:158); valid states are `0..14`. -/
abbrev Wheel := Nat

namespace Wheel

/-- `Wheel::new` (src/main.rs:161-163): `Wheel(pos * 3 + (shift + 1) as u8)`.
The cast `(shift + 1) as u8` agrees with `Int.toNat` for every `shift ≥ -1`,
and the program only ever passes shifts in `{-1, 0, 1}`. -/
def new (pos : Nat) (shift : Int) : Wheel :=
  pos * 3 + (shift + 1).toNat

/-- `Wheel::set` (src/main.rs:165-167). -/
def set (pos : Nat) (shift : Int) : Wheel :=
  pos * 3 + (shift + 1).toNat

/-- `Wheel::pos` (src/main.rs:169-171): `self.0 / 3`. -/
def pos (w : Wheel) : Nat := w / 3

/-- `Wheel::shift` (src/main.rs:173-175): `(self.0 % 3) as i8 - 1`. -/
def shift (w : Wheel) : Int := (w % 3 : Nat) - 1

/-- `Wheel::reset` (src/main.rs:178-180). -/
def reset : Wheel := set 0 0

/-- `Wheel::advance` (src/main.rs:183-198): if the current shift is strictly
less than the desired shift, only the shift advances; otherwise the position
advances as well, wrapping from 4 back to 0. -/
def advance (w : Wheel) (s : Int) : Wheel :=
  if shift w < s then
    set (pos w) s
  else
    set (if pos w = 4 then 0 else pos w + 1) s

end Wheel

/-- `prior` (src/main.rs:247-253). -/
def prior (wheel : Nat) : Nat :=
  if wheel = 0 then 3 else wheel - 1

/-- `next` (src/main.rs:255-261). -/
def next (wheel : Nat) : Nat :=
  if wheel = 3 then 0 else wheel + 1

/-- `struct Lock { wheels: [Wheel; 4] }` (src/main.rs:219-221). -/
structure Lock where
  wheels : Fin 4 → Wheel

/-- Array indexing `wheels[e as usize]`; every index the program produces is
already `< 4`, so the `% 4` is never active under the claims' preconditions. -/
def idx (n : Nat) : Fin 4 := ⟨n % 4, Nat.mod_lt n (by decide)⟩

instance : DecidableEq Lock := fun a b =>
  decidable_of_iff
    (a.wheels 0 = b.wheels 0 ∧ a.wheels 1 = b.wheels 1 ∧
     a.wheels 2 = b.wheels 2 ∧ a.wheels 3 = b.wheels 3)
    (by
      constructor
      · rintro ⟨h0, h1, h2, h3⟩
        cases a; cases b
        simp only at h0 h1 h2 h3
        congr 1
        funext i
        fin_cases i <;> assumption
      · rintro rfl
        exact ⟨rfl, rfl, rfl, rfl⟩)

namespace Lock

/-- `Lock::new` (src/main.rs:225-229): all four wheels at `Wheel::new(0, 0)`. -/
def new : Lock := ⟨fun _ => Wheel.new 0 0⟩

/-- `Lock::slide` (src/main.rs:233-237): in this exact order, advance the
prior wheel to shift `-1`, the direction's wheel to shift `0`, and the next
wheel to shift `1`; each advance reads the state left by the previous one. -/
def slide (l : Lock) (dir : Nat) : Lock :=
  let l1 : Lock :=
    ⟨Function.update l.wheels (idx (prior dir))
      (Wheel.advance (l.wheels (idx (prior dir))) (-1))⟩
  let l2 : Lock :=
    ⟨Function.update l1.wheels (idx dir)
      (Wheel.advance (l1.wheels (idx dir)) 0)⟩
  ⟨Function.update l2.wheels (idx (next dir))
    (Wheel.advance (l2.wheels (idx (next dir))) 1)⟩

end Lock

/-- `struct Target` (src/main.rs:143-150): per resulting lock state, the
count of sequences reaching it, the first such sequence, and all of them.
`MoveSeq` is a plain wrapper around `Vec<u8>`, modelled as `List Nat`. -/
structure Target where
  count : Nat
  seq : List Nat
  all : List (List Nat)
deriving DecidableEq

/-- The direction sequence decoded from the loop counter `binary`
(src/main.rs:75-81): each step uses `tmp & 3` and then shifts by two bits,
so the digits are taken base-4, least significant first. -/
def digitsLE : Nat → Nat → List Nat
  | 0, _ => []
  | n + 1, b => b % 4 :: digitsLE n (b / 4)

/-- The base-4 numeric encoding of a sequence, inverse to `digitsLE`: the
first direction is the least significant digit, exactly as the enumeration
loop packs a sequence into its counter `binary`. -/
def encode4 : List Nat → Nat
  | [] => 0
  | d :: s => d + 4 * encode4 s

/-- All sequences of length `n` in the order the inner loop
(src/main.rs:70) visits them: `binary` running from `0` to `4^n - 1`
(the source writes the bound as `1 << 2*moves`). -/
def seqsOfLength (n : Nat) : List (List Nat) :=
  (List.range (4 ^ n)).map (digitsLE n)

/-- All sequences in enumeration order (src/main.rs:66-70): lengths `1` to
`max`, and within a length, increasing counter order. -/
def allSeqs (max : Nat) : List (List Nat) :=
  ((List.range max).map (fun i => seqsOfLength (i + 1))).flatten

/-- Replaying a sequence against a fresh lock (src/main.rs:74-81). -/
def runSeq (s : List Nat) : Lock :=
  s.foldl Lock.slide Lock.new

/-- One iteration of the aggregation (src/main.rs:82-88): look the resulting
lock up in the map; insert `Target { count: 0, seq, all: [] }` if absent;
then push the sequence onto `all` and increment `count`.  The `BTreeMap` is
modelled as an association list in first-insertion order; the claims under
study do not depend on key-iteration order. -/
def insertSeq (m : List (Lock × Target)) (key : Lock) (s : List Nat) :
    List (Lock × Target) :=
  match m with
  | [] => [(key, ⟨1, s, [s]⟩)]
  | (k, t) :: rest =>
    if k = key then
      (k, ⟨t.count + 1, t.seq, t.all ++ [s]⟩) :: rest
    else
      (k, t) :: insertSeq rest key s

/-- The completed aggregation map for a given `max` (src/main.rs:52-90). -/
def buildMap (max : Nat) : List (Lock × Target) :=
  (allSeqs max).foldl (fun m s => insertSeq m (runSeq s) s) []

/-- Total number of (sequence, state) pairs recorded: the sum of `count`
over all entries. -/
def sumCounts (m : List (Lock × Target)) : Nat :=
  (m.map (fun e => e.2.count)).sum

/-- The duplicate statistic (src/main.rs:98): sum of `count - 1`. -/
def dups (m : List (Lock × Target)) : Nat :=
  (m.map (fun e => e.2.count - 1)).sum

/-- The keys of the aggregation map. -/
def keys (m : List (Lock × Target)) : List Lock :=
  m.map Prod.fst

/-- The sequences of an enumeration list that reach a given lock state, in
enumeration order. -/
def seqsTo (L : List (List Nat)) (k : Lock) : List (List Nat) :=
  L.filter (fun s => decide (runSeq s = k))

/-- The enumeration order on sequences: strictly shorter first; within equal
length, strictly smaller base-4 encoding first. -/
def enumLT (s t : List Nat) : Prop :=
  s.length < t.length ∨ (s.length = t.length ∧ encode4 s < encode4 t)

/-- Invariant tying the aggregation map to the list `L` of sequences folded
into it so far: keys are distinct, every folded sequence's resulting state
is a key, and each entry holds exactly the sequences of `L` that reach its
key, in order, with `count` their number and `seq` the earliest of them. -/
def mapInv (L : List (List Nat)) (m : List (Lock × Target)) : Prop :=
  (keys m).Nodup ∧
  (∀ s ∈ L, runSeq s ∈ keys m) ∧
  (∀ e ∈ m, e.2.all = seqsTo L e.1 ∧ e.2.count = e.2.all.length ∧
    e.2.all ≠ [] ∧ e.2.seq = e.2.all.headI)

/-- The first sort's comparator (src/main.rs:107): first-sequence length. -/
def lenLe (a b : Lock × Target) : Prop :=
  a.2.seq.length ≤ b.2.seq.length

/-- The second sort's key comparison (src/main.rs:108): count. -/
def cntLe (a b : Lock × Target) : Prop :=
  a.2.count ≤ b.2.count

/-- The report order: ascending count, ties broken by ascending
first-sequence length. -/
def repLe (a b : Lock × Target) : Prop :=
  a.2.count < b.2.count ∨
    (a.2.count = b.2.count ∧ a.2.seq.length ≤ b.2.seq.length)

instance : DecidableRel lenLe := fun a b => Nat.decLe a.2.seq.length b.2.seq.length

instance : DecidableRel cntLe := fun a b => Nat.decLe a.2.count b.2.count

instance : IsTotal (Lock × Target) lenLe := ⟨fun a b => Nat.le_total a.2.seq.length b.2.seq.length⟩

instance : IsTrans (Lock × Target) lenLe := ⟨fun _ _ _ => Nat.le_trans⟩

/-- The reporter's sort (src/main.rs:106-108): a stable sort by sequence
length, then a stable sort by count.  Rust's `sort_by` / `sort_by_key` are
stable, as is `List.insertionSort`, and a stable sort's output is a function
of the comparator and the input order alone. -/
def sortMoves (m : List (Lock × Target)) : List (Lock × Target) :=
  List.insertionSort cntLe (List.insertionSort lenLe m)

section WheelTheorems

/-- Helper: on any valid wheel, an advance with a shift in `{-1,0,1}`
always changes the encoded value. -/
theorem advance_ne (w : Wheel) (t : Int) (hw : w < 15)
    (ht : t = -1 ∨ t = 0 ∨ t = 1) : Wheel.advance w t ≠ w := by
  rcases ht with rfl | rfl | rfl <;> revert hw <;> revert w <;> decide

/-- Helper: pointwise description of `Lock.slide`.  The three updated indices
are pairwise distinct for every direction `< 4`, so each wheel's new value is
computed from its value in the original lock. -/
theorem slide_wheels (l : Lock) (d : Nat) (i : Fin 4) (hd : d < 4) :
    (Lock.slide l d).wheels i =
      (if i = idx (prior d) then Wheel.advance (l.wheels i) (-1)
       else if i = idx d then Wheel.advance (l.wheels i) 0
       else if i = idx (next d) then Wheel.advance (l.wheels i) 1
       else l.wheels i) := by
  interval_cases d <;> fin_cases i <;>
    simp [Lock.slide, prior, next, idx, Function.update]

/-- C1: on a valid wheel (`encoded < 15`, hence position in `0..4` and bias
in `{-1,0,+1}`) and a target bias in `{-1,0,+1}`: if the current bias is
strictly less than the target, `advance` keeps the position and sets the
bias; otherwise it advances the position by one wrapping from 4 to 0, and
sets the bias. -/
theorem wheel_advance_rule (w : Wheel) (t : Int) (hw : w < 15)
    (ht : t = -1 ∨ t = 0 ∨ t = 1) :
    (Wheel.shift w < t →
      Wheel.pos (Wheel.advance w t) = Wheel.pos w ∧
      Wheel.shift (Wheel.advance w t) = t) ∧
    (¬ Wheel.shift w < t →
      Wheel.pos (Wheel.advance w t) = (Wheel.pos w + 1) % 5 ∧
      Wheel.shift (Wheel.advance w t) = t) := by
  rcases ht with rfl | rfl | rfl <;> revert hw <;> revert w <;> decide

/-- Witness for C1 at `w = 7` (position 2, bias 0), `t = 0`. -/
theorem wheel_advance_rule_witness :
    (Wheel.shift 7 < 0 →
      Wheel.pos (Wheel.advance 7 0) = Wheel.pos 7 ∧
      Wheel.shift (Wheel.advance 7 0) = 0) ∧
    (¬ Wheel.shift 7 < 0 →
      Wheel.pos (Wheel.advance 7 0) = (Wheel.pos 7 + 1) % 5 ∧
      Wheel.shift (Wheel.advance 7 0) = 0) :=
  wheel_advance_rule 7 0 (by decide) (Or.inr (Or.inl rfl))

/-- C6: on a valid wheel, `advance` with any shift in `{-1,0,+1}` yields an
encoded value again in `0..14`, and the position increments (mod 5) exactly
when the call's bias is not greater than the current bias — in particular it
only changes in that case. -/
theorem wheel_advance_invariant (w : Wheel) (t : Int) (hw : w < 15)
    (ht : t = -1 ∨ t = 0 ∨ t = 1) :
    Wheel.advance w t < 15 ∧
    Wheel.pos (Wheel.advance w t) =
      (if t ≤ Wheel.shift w then (Wheel.pos w + 1) % 5 else Wheel.pos w) := by
  rcases ht with rfl | rfl | rfl <;> revert hw <;> revert w <;> decide

/-- Witness for C6 at `w = 14` (position 4, bias +1), `t = -1`. -/
theorem wheel_advance_invariant_witness :
    Wheel.advance 14 (-1) < 15 ∧
    Wheel.pos (Wheel.advance 14 (-1)) =
      (if (-1 : Int) ≤ Wheel.shift 14 then (Wheel.pos 14 + 1) % 5
       else Wheel.pos 14) :=
  wheel_advance_invariant 14 (-1) (by decide) (Or.inl rfl)

/-- C2: for every lock and direction `d < 4`, `slide d` computes
`prior = (d+3) % 4` and `next = (d+1) % 4` and applies `advance (-1)` to the
prior wheel, `advance 0` to wheel `d`, and `advance 1` to the next wheel —
each from the wheel's original value, since the three indices are pairwise
distinct (so the in-order in-place updates do not interfere). -/
theorem lock_slide_rule (l : Lock) (d : Nat) (i : Fin 4) (hd : d < 4) :
    prior d = (d + 3) % 4 ∧ next d = (d + 1) % 4 ∧
    (Lock.slide l d).wheels i =
      (if i = idx (prior d) then Wheel.advance (l.wheels i) (-1)
       else if i = idx d then Wheel.advance (l.wheels i) 0
       else if i = idx (next d) then Wheel.advance (l.wheels i) 1
       else l.wheels i) := by
  refine ⟨?_, ?_, slide_wheels l d i hd⟩ <;> interval_cases d <;> rfl

/-- Witness for C2 at the reset lock, `d = 2`, `i = 3`. -/
theorem lock_slide_rule_witness :
    prior 2 = (2 + 3) % 4 ∧ next 2 = (2 + 1) % 4 ∧
    (Lock.slide Lock.new 2).wheels 3 =
      (if (3 : Fin 4) = idx (prior 2) then Wheel.advance (Lock.new.wheels 3) (-1)
       else if (3 : Fin 4) = idx 2 then Wheel.advance (Lock.new.wheels 3) 0
       else if (3 : Fin 4) = idx (next 2) then Wheel.advance (Lock.new.wheels 3) 1
       else Lock.new.wheels 3) :=
  lock_slide_rule Lock.new 2 3 (by decide)

/-- C3 counterexample: `slide 0` touches only wheels `3, 0, 1`; wheel `2` is
neither the prior, the direction, nor the next wheel, and its value is left
unchanged — so not every wheel is updated by a slide. -/
theorem slide_not_all_wheels :
    (2 : Fin 4) ≠ idx (prior 0) ∧ (2 : Fin 4) ≠ idx 0 ∧
    (2 : Fin 4) ≠ idx (next 0) ∧
    (Lock.slide Lock.new 0).wheels 2 = Lock.new.wheels 2 := by
  refine ⟨by decide, by decide, by decide, ?_⟩
  simp [Lock.slide, Lock.new, prior, next, idx, Function.update]

/-- C3 amended: for every valid lock and direction `d < 4`, the three indices
`prior d`, `d`, `next d` are pairwise distinct and each of those three wheels
changes value, while the single remaining wheel, index `(d+2) % 4`, is left
unchanged by the slide. -/
theorem slide_updates_three_wheels (l : Lock) (d : Nat) (i : Fin 4)
    (hd : d < 4) (hv : ∀ j : Fin 4, l.wheels j < 15) :
    (idx (prior d) ≠ idx d ∧ idx d ≠ idx (next d) ∧
     idx (prior d) ≠ idx (next d)) ∧
    ((i = idx (prior d) ∨ i = idx d ∨ i = idx (next d)) →
      (Lock.slide l d).wheels i ≠ l.wheels i) ∧
    (Lock.slide l d).wheels (idx ((d + 2) % 4)) = l.wheels (idx ((d + 2) % 4)) := by
  refine ⟨?_, ?_, ?_⟩
  · interval_cases d <;> exact ⟨by decide, by decide, by decide⟩
  · intro hi
    rw [slide_wheels l d i hd]
    rcases hi with hi | hi | hi
    · rw [if_pos hi]
      exact advance_ne _ _ (hv i) (Or.inl rfl)
    · by_cases hp : i = idx (prior d)
      · rw [if_pos hp]
        exact advance_ne _ _ (hv i) (Or.inl rfl)
      · rw [if_neg hp, if_pos hi]
        exact advance_ne _ _ (hv i) (Or.inr (Or.inl rfl))
    · by_cases hp : i = idx (prior d)
      · rw [if_pos hp]
        exact advance_ne _ _ (hv i) (Or.inl rfl)
      · by_cases hq : i = idx d
        · rw [if_neg hp, if_pos hq]
          exact advance_ne _ _ (hv i) (Or.inr (Or.inl rfl))
        · rw [if_neg hp, if_neg hq, if_pos hi]
          exact advance_ne _ _ (hv i) (Or.inr (Or.inr rfl))
  · rw [slide_wheels l d _ hd]
    interval_cases d <;> rfl

/-- C9: with `maxMoves = 1` exactly the four one-direction sequences are
enumerated, their four resulting lock states are pairwise distinct, the map
has exactly 4 entries, each with `count = 1`, and the duplicate statistic
is 0. -/
theorem single_move_distinct :
    allSeqs 1 = [[0], [1], [2], [3]] ∧
    (allSeqs 1).Pairwise (fun s t => runSeq s ≠ runSeq t) ∧
    (buildMap 1).length = 4 ∧
    (∀ e ∈ buildMap 1, e.2.count = 1) ∧
    dups (buildMap 1) = 0 := by
  refine ⟨by decide, by decide, by decide, by decide, by decide⟩

/-- Witness for the amended C3 at the reset lock, `d = 1`, `i = 0`. -/
theorem slide_updates_three_wheels_witness :
    ((idx (prior 1) ≠ idx 1 ∧ idx 1 ≠ idx (next 1) ∧
      idx (prior 1) ≠ idx (next 1)) ∧
    (((0 : Fin 4) = idx (prior 1) ∨ (0 : Fin 4) = idx 1 ∨
       (0 : Fin 4) = idx (next 1)) →
      (Lock.slide Lock.new 1).wheels 0 ≠ Lock.new.wheels 0) ∧
    (Lock.slide Lock.new 1).wheels (idx ((1 + 2) % 4)) =
      Lock.new.wheels (idx ((1 + 2) % 4))) :=
  slide_updates_three_wheels Lock.new 1 0 (by decide) (by decide)

end WheelTheorems

section Aggregation

/-- Inserting one pair adds exactly one to the total count. -/
theorem sumCounts_insertSeq (m : List (Lock × Target)) (key : Lock)
    (s : List Nat) : sumCounts (insertSeq m key s) = sumCounts m + 1 := by
  induction m with
  | nil => rfl
  | cons e rest ih =>
    obtain ⟨k, t⟩ := e
    by_cases h : k = key <;> simp [insertSeq, h, sumCounts] at ih ⊢ <;> omega

/-- Folding a list of sequences into the map adds its length to the total
count. -/
theorem sumCounts_foldl (L : List (List Nat)) :
    ∀ m : List (Lock × Target),
      sumCounts (L.foldl (fun m s => insertSeq m (runSeq s) s) m) =
        sumCounts m + L.length := by
  induction L with
  | nil => intro m; rfl
  | cons s L ih =>
    intro m
    simp only [List.foldl_cons, ih, sumCounts_insertSeq, List.length_cons]
    omega

/-- Every entry keeps a count of at least one. -/
theorem count_pos_insertSeq (m : List (Lock × Target)) (key : Lock)
    (s : List Nat) (hm : ∀ e ∈ m, 1 ≤ e.2.count) :
    ∀ e ∈ insertSeq m key s, 1 ≤ e.2.count := by
  induction m with
  | nil =>
    intro e he
    simp only [insertSeq, List.mem_singleton] at he
    subst he; exact le_refl 1
  | cons p rest ih =>
    obtain ⟨k, t⟩ := p
    intro e he
    by_cases h : k = key
    · simp only [insertSeq, if_pos h, List.mem_cons] at he
      rcases he with rfl | he
      · simp
      · exact hm e (List.mem_cons_of_mem _ he)
    · simp only [insertSeq, if_neg h, List.mem_cons] at he
      rcases he with rfl | he
      · exact hm _ (List.mem_cons_self _ _)
      · exact ih (fun e' he' => hm e' (List.mem_cons_of_mem _ he')) e he

/-- Every entry of the finished map has a count of at least one. -/
theorem count_pos_foldl (L : List (List Nat)) :
    ∀ m : List (Lock × Target), (∀ e ∈ m, 1 ≤ e.2.count) →
      ∀ e ∈ L.foldl (fun m s => insertSeq m (runSeq s) s) m, 1 ≤ e.2.count := by
  induction L with
  | nil => intro m hm; exact hm
  | cons s L ih =>
    intro m hm
    exact ih _ (count_pos_insertSeq m (runSeq s) s hm)

/-- Entry count plus duplicate statistic recovers the total count. -/
theorem length_add_dups (m : List (Lock × Target))
    (hm : ∀ e ∈ m, 1 ≤ e.2.count) :
    m.length + dups m = sumCounts m := by
  induction m with
  | nil => rfl
  | cons e rest ih =>
    have h1 : 1 ≤ e.2.count := hm e (List.mem_cons_self _ _)
    have h2 := ih (fun e' he' => hm e' (List.mem_cons_of_mem _ he'))
    simp only [dups, sumCounts, List.map_cons, List.sum_cons,
      List.length_cons] at h2 ⊢
    omega

/-- The number of sequences of each length is `4 ^ n`. -/
theorem length_seqsOfLength (n : Nat) : (seqsOfLength n).length = 4 ^ n := by
  simp [seqsOfLength]

/-- The number of enumerated sequences is `4 + 4^2 + ... + 4^max`. -/
theorem length_allSeqs (max : Nat) :
    (allSeqs max).length = ∑ k ∈ Finset.Icc 1 max, 4 ^ k := by
  induction max with
  | zero => rfl
  | succ n ih =>
    rw [Finset.sum_Icc_succ_top (by omega)]
    simp only [allSeqs, List.range_succ, List.map_append, List.flatten_append,
      List.length_append] at ih ⊢
    simp only [ih.symm, allSeqs, List.map_cons, List.map_nil,
      List.flatten_cons, List.flatten_nil, List.append_nil,
      length_seqsOfLength]

/-- C4: for every `maxMoves = n ≥ 1`, the sum of `count` over all map
entries equals `4 + 4^2 + ... + 4^n`, and the number of distinct states plus
the duplicate statistic (`sum of count - 1`) equals the same total. -/
theorem enum_totals (n : Nat) (_hn : 1 ≤ n) :
    sumCounts (buildMap n) = ∑ k ∈ Finset.Icc 1 n, 4 ^ k ∧
    (buildMap n).length + dups (buildMap n) = ∑ k ∈ Finset.Icc 1 n, 4 ^ k := by
  have htot : sumCounts (buildMap n) = ∑ k ∈ Finset.Icc 1 n, 4 ^ k := by
    rw [buildMap, sumCounts_foldl, length_allSeqs]
    simp [sumCounts]
  refine ⟨htot, ?_⟩
  rw [← htot]
  exact length_add_dups _ (count_pos_foldl _ _ (by simp))

/-- Keys are unchanged when the inserted key is already present. -/
theorem keys_insertSeq_mem (m : List (Lock × Target)) (key : Lock)
    (s : List Nat) (h : key ∈ keys m) :
    keys (insertSeq m key s) = keys m := by
  induction m with
  | nil => simp [keys] at h
  | cons p rest ih =>
    obtain ⟨k, t⟩ := p
    by_cases hk : k = key
    · simp [insertSeq, hk, keys]
    · simp only [keys, List.map_cons, List.mem_cons] at h
      rcases h with h | h
      · exact absurd h.symm hk
      · simp only [insertSeq, if_neg hk, keys, List.map_cons,
          List.cons.injEq, true_and]
        exact ih h

/-- A fresh key is appended at the end of the key list. -/
theorem keys_insertSeq_not_mem (m : List (Lock × Target)) (key : Lock)
    (s : List Nat) (h : key ∉ keys m) :
    keys (insertSeq m key s) = keys m ++ [key] := by
  induction m with
  | nil => rfl
  | cons p rest ih =>
    obtain ⟨k, t⟩ := p
    simp only [keys, List.map_cons, List.mem_cons] at h
    push_neg at h
    have hne : k ≠ key := fun hh => h.1 hh.symm
    simp only [insertSeq, if_neg hne, keys, List.map_cons,
      List.cons_append, List.cons.injEq, true_and]
    exact ih h.2

/-- Where an entry of `insertSeq m key s` comes from: either it is an
untouched entry of `m` with a different key, the freshly created entry, or
the updated entry for `key`. -/
theorem insertSeq_entries (m : List (Lock × Target)) (key : Lock)
    (s : List Nat) (hnd : (keys m).Nodup) :
    ∀ e ∈ insertSeq m key s,
      (e.1 ≠ key ∧ e ∈ m) ∨
      (key ∉ keys m ∧ e = (key, ⟨1, s, [s]⟩)) ∨
      (∃ t, (key, t) ∈ m ∧ e = (key, ⟨t.count + 1, t.seq, t.all ++ [s]⟩)) := by
  induction m with
  | nil =>
    intro e he
    simp only [insertSeq, List.mem_singleton] at he
    exact Or.inr (Or.inl ⟨by simp [keys], he⟩)
  | cons p rest ih =>
    obtain ⟨k, t⟩ := p
    simp only [keys, List.map_cons, List.nodup_cons] at hnd
    intro e he
    by_cases hk : k = key
    · subst hk
      rw [insertSeq, if_pos rfl] at he
      rcases List.mem_cons.mp he with he | he
      · exact Or.inr (Or.inr ⟨t, List.mem_cons_self _ _, he⟩)
      · left
        refine ⟨?_, List.mem_cons_of_mem _ he⟩
        intro h1
        exact hnd.1 (h1 ▸ List.mem_map_of_mem Prod.fst he)
    · rw [insertSeq, if_neg hk] at he
      rcases List.mem_cons.mp he with he | he
      · refine Or.inl ⟨?_, ?_⟩
        · rw [he]; exact hk
        · rw [he]; exact List.mem_cons_self _ _
      · rcases ih hnd.2 e he with ⟨h1, h2⟩ | ⟨hnm, he'⟩ | ⟨t', ht', he'⟩
        · exact Or.inl ⟨h1, List.mem_cons_of_mem _ h2⟩
        · refine Or.inr (Or.inl ⟨?_, he'⟩)
          simp only [keys, List.map_cons, List.mem_cons]
          push_neg
          exact ⟨fun hh => hk hh.symm, hnm⟩
        · exact Or.inr (Or.inr ⟨t', List.mem_cons_of_mem _ ht', he'⟩)

/-- Appending one sequence to the enumeration extends each key's reaching
list by that sequence exactly when it reaches the key. -/
theorem seqsTo_append (L : List (List Nat)) (s : List Nat) (k : Lock) :
    seqsTo (L ++ [s]) k =
      seqsTo L k ++ if runSeq s = k then [s] else [] := by
  simp only [seqsTo, List.filter_append, List.filter_cons, List.filter_nil]
  by_cases h : runSeq s = k <;> simp [h]

/-- `headI` looks only at the first list of an append when it is
non-empty. -/
theorem headI_append_of_ne_nil {α : Type} [Inhabited α] (l l' : List α) (h : l ≠ []) :
    (l ++ l').headI = l.headI := by
  cases l with
  | nil => exact absurd rfl h
  | cons a l => rfl

/-- Folding one more sequence into a map satisfying the invariant yields a
map satisfying the invariant for the extended enumeration. -/
theorem mapInv_insert (L : List (List Nat)) (s : List Nat)
    (m : List (Lock × Target)) (h : mapInv L m) :
    mapInv (L ++ [s]) (insertSeq m (runSeq s) s) := by
  obtain ⟨hnd, hmem, hent⟩ := h
  have hkeys : keys (insertSeq m (runSeq s) s) = keys m ∨
      keys (insertSeq m (runSeq s) s) = keys m ++ [runSeq s] := by
    by_cases hk : runSeq s ∈ keys m
    · exact Or.inl (keys_insertSeq_mem m _ s hk)
    · exact Or.inr (keys_insertSeq_not_mem m _ s hk)
  refine ⟨?_, ?_, ?_⟩
  · rcases hkeys with hk | hk <;> rw [hk]
    · exact hnd
    · have hout : runSeq s ∉ keys m := by
        intro hin
        rw [keys_insertSeq_mem m _ s hin] at hk
        have : (keys m).length = (keys m).length + 1 := by
          conv_lhs => rw [hk]
          simp
        omega
      simp [List.nodup_append, hnd, hout]
  · intro s' hs'
    have hsub : keys m ⊆ keys (insertSeq m (runSeq s) s) := by
      rcases hkeys with hk | hk <;> rw [hk]
      · exact fun a ha => ha
      · exact fun a ha => List.mem_append_left _ ha
    rcases List.mem_append.mp hs' with hs' | hs'
    · exact hsub (hmem s' hs')
    · simp only [List.mem_singleton] at hs'
      subst hs'
      by_cases hk : runSeq s' ∈ keys m
      · exact hsub hk
      · rw [keys_insertSeq_not_mem m _ _ hk]
        simp
  · intro e he
    rcases insertSeq_entries m (runSeq s) s hnd e he with
      ⟨hne, hem⟩ | ⟨hnm, rfl⟩ | ⟨t, ht, rfl⟩
    · obtain ⟨h1, h2, h3, h4⟩ := hent e hem
      refine ⟨?_, h2, h3, h4⟩
      rw [seqsTo_append, if_neg (fun hh => hne hh.symm), List.append_nil]
      exact h1
    · have hempty : seqsTo L (runSeq s) = [] := by
        apply List.filter_eq_nil_iff.mpr
        intro s' hs'
        simp only [decide_eq_true_eq]
        intro heq
        exact hnm (heq ▸ hmem s' hs')
      refine ⟨?_, rfl, by simp, rfl⟩
      rw [seqsTo_append, if_pos rfl, hempty, List.nil_append]
    · obtain ⟨h1, h2, h3, h4⟩ := hent (runSeq s, t) ht
      simp only at h1 h2 h3 h4
      refine ⟨?_, ?_, by simp, ?_⟩
      · rw [seqsTo_append, if_pos rfl, ← h1]
      · simp [h2]
      · simp only [h4]
        exact (headI_append_of_ne_nil t.all [s] h3).symm

/-- The completed map satisfies the invariant for the full enumeration. -/
theorem mapInv_foldl (L : List (List Nat)) :
    mapInv L (L.foldl (fun m s => insertSeq m (runSeq s) s) []) := by
  induction L using List.reverseRecOn with
  | nil => exact ⟨List.nodup_nil, by simp, by simp⟩
  | append_singleton L s ih =>
    rw [List.foldl_append]
    exact mapInv_insert L s _ ih

/-- The invariant, specialised to `buildMap`. -/
theorem buildMap_inv (n : Nat) : mapInv (allSeqs n) (buildMap n) :=
  mapInv_foldl _

/-- A decoded sequence has exactly `n` directions. -/
theorem length_digitsLE (n : Nat) :
    ∀ b : Nat, (digitsLE n b).length = n := by
  induction n with
  | zero => intro b; rfl
  | succ n ih => intro b; simp [digitsLE, ih]

/-- Every decoded direction is in `0..3`. -/
theorem digitsLE_lt (n : Nat) :
    ∀ b : Nat, ∀ d ∈ digitsLE n b, d < 4 := by
  induction n with
  | zero => intro b d hd; simp [digitsLE] at hd
  | succ n ih =>
    intro b d hd
    rcases List.mem_cons.mp hd with rfl | hd
    · exact Nat.mod_lt _ (by decide)
    · exact ih _ d hd

/-- Decoding then encoding recovers the loop counter. -/
theorem encode4_digitsLE (n : Nat) :
    ∀ b : Nat, b < 4 ^ n → encode4 (digitsLE n b) = b := by
  induction n with
  | zero =>
    intro b hb
    interval_cases b
    rfl
  | succ n ih =>
    intro b hb
    have hdiv : b / 4 < 4 ^ n := by
      rw [Nat.div_lt_iff_lt_mul (by decide)]
      rw [pow_succ] at hb
      exact hb
    simp only [digitsLE, encode4, ih _ hdiv]
    omega

/-- Encoding then decoding recovers a sequence over directions `0..3`. -/
theorem digitsLE_encode4 (s : List Nat) (hs : ∀ d ∈ s, d < 4) :
    digitsLE s.length (encode4 s) = s := by
  induction s with
  | nil => rfl
  | cons d s ih =>
    have hd : d < 4 := hs d (List.mem_cons_self _ _)
    have ih' := ih (fun d' hd' => hs d' (List.mem_cons_of_mem _ hd'))
    simp only [List.length_cons, digitsLE, encode4]
    have h0 : (d + 4 * encode4 s) % 4 = d := by omega
    have h1 : (d + 4 * encode4 s) / 4 = encode4 s := by omega
    rw [h0, h1, ih']

/-- The encoding of a sequence of `n` directions is below `4 ^ n`. -/
theorem encode4_lt (s : List Nat) (hs : ∀ d ∈ s, d < 4) :
    encode4 s < 4 ^ s.length := by
  induction s with
  | nil => decide
  | cons d s ih =>
    have hd : d < 4 := hs d (List.mem_cons_self _ _)
    have ih' := ih (fun d' hd' => hs d' (List.mem_cons_of_mem _ hd'))
    simp only [List.length_cons, encode4, pow_succ]
    omega

/-- Membership in one length block of the enumeration. -/
theorem mem_seqsOfLength (n : Nat) (s : List Nat) :
    s ∈ seqsOfLength n ↔ s.length = n ∧ ∀ d ∈ s, d < 4 := by
  constructor
  · intro hs
    obtain ⟨b, hb, rfl⟩ := List.mem_map.mp hs
    exact ⟨length_digitsLE n b, digitsLE_lt n b⟩
  · rintro ⟨rfl, hs⟩
    refine List.mem_map.mpr ⟨encode4 s, ?_, digitsLE_encode4 s hs⟩
    exact List.mem_range.mpr (encode4_lt s hs)

/-- Membership in the full enumeration: exactly the direction sequences of
length `1` to `max`. -/
theorem mem_allSeqs (max : Nat) (s : List Nat) :
    s ∈ allSeqs max ↔ 1 ≤ s.length ∧ s.length ≤ max ∧ ∀ d ∈ s, d < 4 := by
  simp only [allSeqs, List.mem_flatten, List.mem_map]
  constructor
  · rintro ⟨l, ⟨i, hi, rfl⟩, hs⟩
    obtain ⟨hlen, hdig⟩ := (mem_seqsOfLength _ s).mp hs
    rw [List.mem_range] at hi
    exact ⟨by omega, by omega, hdig⟩
  · rintro ⟨h1, h2, hdig⟩
    refine ⟨seqsOfLength s.length, ⟨s.length - 1, ?_, ?_⟩, ?_⟩
    · exact List.mem_range.mpr (by omega)
    · congr 1
      omega
    · exact (mem_seqsOfLength _ s).mpr ⟨rfl, hdig⟩

/-- Each length block is strictly increasing in the enumeration order. -/
theorem pairwise_seqsOfLength (n : Nat) :
    (seqsOfLength n).Pairwise enumLT := by
  rw [seqsOfLength, List.pairwise_map]
  refine (List.pairwise_lt_range _).imp_of_mem ?_
  intro a b ha hb hab
  right
  rw [List.mem_range] at ha hb
  constructor
  · rw [length_digitsLE, length_digitsLE]
  · rw [encode4_digitsLE n a ha, encode4_digitsLE n b hb]
    exact hab

/-- The full enumeration is strictly increasing in the enumeration order:
all sequences of a given length precede all longer ones, and within a
length the base-4 encoding increases. -/
theorem pairwise_allSeqs (max : Nat) :
    (allSeqs max).Pairwise enumLT := by
  rw [allSeqs, List.pairwise_flatten]
  constructor
  · intro l hl
    obtain ⟨i, -, rfl⟩ := List.mem_map.mp hl
    exact pairwise_seqsOfLength _
  · rw [List.pairwise_map]
    refine (List.pairwise_lt_range _).imp_of_mem ?_
    intro i j hi hj hij x hx y hy
    left
    obtain ⟨hx1, -⟩ := (mem_seqsOfLength _ x).mp hx
    obtain ⟨hy1, -⟩ := (mem_seqsOfLength _ y).mp hy
    omega

/-- C5: the enumeration lists all sequences of length 1 before all of
length 2 and so on; within a length, sequences appear in increasing order
of their base-4 encoding (the sequence read as a base-4 number, first move
least significant, ranging over `0 .. 4^n - 1`); and every entry's
`firstSequence` is the earliest-enumerated sequence reaching its state,
with `allSequences` listing all of them in enumeration order. -/
theorem enum_order (n : Nat) (_hn : 1 ≤ n) (e : Lock × Target)
    (he : e ∈ buildMap n) :
    (allSeqs n).Pairwise enumLT ∧
    (∀ s, s ∈ allSeqs n ↔ 1 ≤ s.length ∧ s.length ≤ n ∧ ∀ d ∈ s, d < 4) ∧
    e.2.all = seqsTo (allSeqs n) e.1 ∧
    e.2.seq = (seqsTo (allSeqs n) e.1).headI := by
  obtain ⟨-, -, hent⟩ := buildMap_inv n
  obtain ⟨h1, -, -, h4⟩ := hent e he
  exact ⟨pairwise_allSeqs n, mem_allSeqs n, h1, by rw [h4, h1]⟩

/-- Witness for C5 at `n = 1` and the entry reached by the sequence
`[1]`. -/
theorem enum_order_witness :
    ((runSeq [1], (⟨1, [1], [[1]]⟩ : Target)) ∈ buildMap 1) ∧
    ((allSeqs 1).Pairwise enumLT ∧
     (∀ s, s ∈ allSeqs 1 ↔ 1 ≤ s.length ∧ s.length ≤ 1 ∧ ∀ d ∈ s, d < 4) ∧
     (⟨1, [1], [[1]]⟩ : Target).all = seqsTo (allSeqs 1) (runSeq [1]) ∧
     (⟨1, [1], [[1]]⟩ : Target).seq = (seqsTo (allSeqs 1) (runSeq [1])).headI) :=
  ⟨by decide, enum_order 1 (by decide) (runSeq [1], ⟨1, [1], [[1]]⟩) (by decide)⟩

/-- C10: after enumeration, every map entry's `count` equals the length of
its `all` list, its `seq` is the first element of `all`, and consequently
`all` is non-empty and `count ≥ 1`. -/
theorem entry_invariant (n : Nat) (e : Lock × Target)
    (he : e ∈ buildMap n) :
    e.2.count = e.2.all.length ∧ e.2.all ≠ [] ∧
    e.2.seq = e.2.all.headI ∧ 1 ≤ e.2.count := by
  obtain ⟨-, -, hent⟩ := buildMap_inv n
  obtain ⟨h1, h2, h3, h4⟩ := hent e he
  refine ⟨h2, h3, h4, ?_⟩
  rw [h2]
  exact List.length_pos.mpr h3

/-- Witness for C10 at `n = 1` and the entry reached by the sequence
`[0]`. -/
theorem entry_invariant_witness :
    ((runSeq [0], (⟨1, [0], [[0]]⟩ : Target)) ∈ buildMap 1) ∧
    ((⟨1, [0], [[0]]⟩ : Target).count = (⟨1, [0], [[0]]⟩ : Target).all.length ∧
     (⟨1, [0], [[0]]⟩ : Target).all ≠ [] ∧
     (⟨1, [0], [[0]]⟩ : Target).seq = (⟨1, [0], [[0]]⟩ : Target).all.headI ∧
     1 ≤ (⟨1, [0], [[0]]⟩ : Target).count) :=
  ⟨by decide, entry_invariant 1 (runSeq [0], ⟨1, [0], [[0]]⟩) (by decide)⟩

/-- Inserting an element by count into a list already in report order, when
the element's sequence length is a lower bound for the list (stability: it
came first in the length-sorted pass), keeps the list in report order. -/
theorem orderedInsert_repLe (x : Lock × Target) (m : List (Lock × Target))
    (hm : m.Pairwise repLe) (hx : ∀ y ∈ m, lenLe x y) :
    (List.orderedInsert cntLe x m).Pairwise repLe := by
  induction m with
  | nil => simp [List.orderedInsert]
  | cons y ys ih =>
    rw [List.pairwise_cons] at hm
    obtain ⟨hy, hys⟩ := hm
    by_cases hxy : cntLe x y
    · simp only [List.orderedInsert, if_pos hxy]
      refine List.Pairwise.cons ?_ (List.Pairwise.cons hy hys)
      intro z hz
      have hcy : x.2.count ≤ y.2.count := hxy
      rcases List.mem_cons.mp hz with rfl | hz
      · rcases Nat.lt_or_ge x.2.count z.2.count with h | h
        · exact Or.inl h
        · exact Or.inr ⟨Nat.le_antisymm hcy h, hx z (List.mem_cons_self _ _)⟩
      · have hcz : y.2.count ≤ z.2.count := by
          rcases hy z hz with h | ⟨h, -⟩
          · exact Nat.le_of_lt h
          · exact Nat.le_of_eq h
        rcases Nat.lt_or_ge x.2.count z.2.count with h | h
        · exact Or.inl h
        · exact Or.inr ⟨Nat.le_antisymm (Nat.le_trans hcy hcz) h,
            hx z (List.mem_cons_of_mem _ hz)⟩
    · simp only [List.orderedInsert, if_neg hxy]
      refine List.Pairwise.cons ?_
        (ih hys (fun y' hy' => hx y' (List.mem_cons_of_mem _ hy')))
      intro z hz
      rcases (List.mem_orderedInsert _).mp hz with rfl | hz
      · exact Or.inl (Nat.lt_of_not_le hxy)
      · exact hy z hz

/-- Stably sorting a length-sorted list by count yields the report order. -/
theorem insertionSort_repLe (m : List (Lock × Target))
    (hm : m.Pairwise lenLe) :
    (List.insertionSort cntLe m).Pairwise repLe := by
  induction m with
  | nil => simp [List.insertionSort]
  | cons x xs ih =>
    rw [List.pairwise_cons] at hm
    rw [List.insertionSort]
    refine orderedInsert_repLe x _ (ih hm.2) ?_
    intro y hy
    exact hm.1 y ((List.mem_insertionSort _).mp hy)

/-- C7: for every completed aggregation map, the sorted report lists
entries in ascending order of count, and entries of equal count in
ascending order of first-sequence length. -/
theorem report_sorted (n : Nat) :
    (sortMoves (buildMap n)).Pairwise repLe :=
  insertionSort_repLe _ (List.sorted_insertionSort lenLe _)

/-- C8: with `maxMoves = 0` the enumeration is empty, so the sorted result
is empty and the first-element access the code performs unguarded at
src/main.rs:123 (`moves[0]`) is out of bounds: the model's total lookup
returns `none`, and the Rust program panics. -/
theorem empty_search_out_of_bounds :
    buildMap 0 = [] ∧ sortMoves (buildMap 0) = [] ∧
    (sortMoves (buildMap 0))[0]? = none :=
  ⟨rfl, rfl, rfl⟩

/-- Witness for C4 at `n = 2`. -/
theorem enum_totals_witness :
    sumCounts (buildMap 2) = ∑ k ∈ Finset.Icc 1 2, 4 ^ k ∧
    (buildMap 2).length + dups (buildMap 2) = ∑ k ∈ Finset.Icc 1 2, 4 ^ k :=
  enum_totals 2 (by decide)

end Aggregation
